import Mathlib

/-!
# Shallow embedding of `fast_transformers/local_product/local_product_cuda.cu`

Tensors are modelled as total functions from integer indices to exact
rationals (the CUDA code computes in `float`; we model the arithmetic
exactly, which preserves all indexing and ring-identity behaviour).
A cell of the banded score tensor can additionally hold the fill value
`-infinity`; this is modelled by the dedicated type `SVal`.
-/

/-- A cell of the banded score tensor produced by `local_dot_product`:
either the fill value `-std::numeric_limits<float>::infinity()`
(lines 373-376 of the source) or a finite value. -/
inductive SVal where
  | ninf : SVal
  | fin : ℚ → SVal
deriving DecidableEq, Repr

/-- Rank-1 `long` accessor (`key_lengths`, line 15). -/
abbrev A1 : Type := ℤ → ℤ

/-- Rank-2 `float` accessor (`attn_mask`, line 14). -/
abbrev A2 : Type := ℤ → ℤ → ℚ

/-- Rank-3 accessor with cell type `α` (line 13; `α` is `ℚ` for inputs,
and for outputs whichever cell type the surrounding operation uses). -/
abbrev A3 (α : Type) : Type := ℤ → ℤ → ℤ → α

/-- Rank-4 accessor (line 12). -/
abbrev A4 (α : Type) : Type := ℤ → ℤ → ℤ → ℤ → α

/-- A single-cell store into a rank-3 tensor (one CUDA global-memory write,
e.g. line 147 `output[n][l][k] = ...`). -/
def upd3 {α : Type} (t : A3 α) (a b c : ℤ) (v : α) : A3 α :=
  fun x y z => if x = a ∧ y = b ∧ z = c then v else t x y z

/-- `ceildiv` (lines 18-20). -/
def ceildiv (a b : ℕ) : ℕ := (a + b - 1) / b

/-!
## The sliding dot-product engine (`sliding_dot`, lines 59-103) and its
selection functors (`masked_lp_copy`, lines 110-159; `lp_copy`, lines 166-198)

`sliding_dot_copy_kernel` (lines 22-42) launches one thread per element of the
dense scratch buffer (rounded up to whole 1024-thread blocks, lines 90-91) and
each thread runs the functor's `operator()`.  The two functors share the same
thread-index decomposition and bounds checks (lines 128-145 and 177-194 are
verbatim identical); they differ only in the value stored at the target cell.
`copy_step` embeds that shared body, parameterised by the stored value
(`write`); it is the action of one thread `idx` on the output tensor.
-/

/-- One thread of `sliding_dot_copy_kernel` running a selection functor.
Mirrors lines 119-148 (and identically 168-197): decompose the flat thread
index into `(n, l_offset, s_offset)`, return if `n` is out of range,
compute `l`, `s`, `k = s - l + local_context/2`, return if `k` is outside
`[0, local_context)`, otherwise store `write buffer[n][l_offset][s_offset] l s`
at `output[n][l][k]`. -/
def copy_step {α : Type} (write : ℚ → ℤ → ℤ → α)
    (buffer : ℕ → ℕ → ℕ → ℚ) (bufN : ℕ) (local_context : ℕ)
    (l_start s_start : ℤ) (buffer_dim12 buffer_dim2 : ℕ)
    (output : A3 α) (idx : ℕ) : A3 α :=
  let n : ℕ := idx / buffer_dim12
  let idx1 : ℕ := idx - n * buffer_dim12
  let l_offset : ℕ := idx1 / buffer_dim2
  let idx2 : ℕ := idx1 - l_offset * buffer_dim2
  let s_offset : ℕ := idx2
  if bufN ≤ n then output
  else
    let l : ℤ := l_start + l_offset
    let s : ℤ := s_start + s_offset
    let k : ℤ := s - l + (local_context / 2 : ℕ)
    if k < 0 ∨ (local_context : ℤ) ≤ k then output
    else upd3 output n l k (write (buffer n l_offset s_offset) l s)

/-- `masked_lp_copy` (lines 110-159): stores the buffer value plus
`attn_mask[l][s]`, as a finite score.  The struct also stores `key_lengths`
(lines 113, 115-117) but its `operator()` never reads it. -/
def masked_lp_copy (attn_mask : A2) (key_lengths : A1) : ℚ → ℤ → ℤ → SVal :=
  fun v l s => SVal.fin (v + attn_mask l s)

/-- `lp_copy` (lines 166-198): stores the buffer value unchanged. -/
def lp_copy : ℚ → ℤ → ℤ → ℚ := fun v _ _ => v

/-- Key-range start of the chunk at `l`: `std::max(0, l-local_context/2)`
(line 76). -/
def sd_s_start (local_context l : ℕ) : ℤ :=
  max 0 ((l : ℤ) - (local_context / 2 : ℕ))

/-- Key-range end of the chunk at `l`:
`std::min(L, l-local_context/2+local_context+a_blocks)` (line 77). -/
def sd_s_end (L local_context a_blocks l : ℕ) : ℤ :=
  min (L : ℤ) ((l : ℤ) - (local_context / 2 : ℕ) + local_context + a_blocks)

/-- `n_b = s_end - s_start` (line 78). -/
def sd_n_b (L local_context a_blocks l : ℕ) : ℕ :=
  (sd_s_end L local_context a_blocks l - sd_s_start local_context l).toNat

/-- `n_a = std::min(L-l, a_blocks)` (line 79). -/
def sd_n_a (L a_blocks l : ℕ) : ℕ := min (L - l) a_blocks

/-- The dense sub-block product written into the scratch buffer by
`at::matmul_out(buff, A.narrow(1,l,n_a), B.narrow(1,s_start,n_b).transpose(1,2))`
(lines 82-87): `buff[n][i][j] = A[n][l_start+i] · B[n][s_start+j]`.  The matmul
overwrites exactly the `[0,n_a) x [0,n_b)` region that the selection kernel of
this same iteration reads. -/
def sd_buffer (A B : A3 ℚ) (E : ℕ) (l_start : ℕ) (s_start : ℤ) :
    ℕ → ℕ → ℕ → ℚ :=
  fun n i j =>
    ∑ e ∈ Finset.range E, A n (l_start + i) e * B n (s_start + j) e

/-- One outer-loop iteration of `sliding_dot` (lines 73-102): the blocked
matmul followed by a launch of `ceildiv(buff.numel(), 1024)` blocks of 1024
threads of the selection kernel (lines 90-101), with
`buffer_dim12 = n_a*n_b` and `buffer_dim2 = n_b`. -/
def sd_launch {α : Type} (a_blocks : ℕ) (write : ℚ → ℤ → ℤ → α)
    (A B : A3 ℚ) (N L E local_context : ℕ) (l_start : ℕ)
    (out : A3 α) : A3 α :=
  (List.range (ceildiv (N * (sd_n_a L a_blocks l_start *
      sd_n_b L local_context a_blocks l_start)) 1024 * 1024)).foldl
    (copy_step write
      (sd_buffer A B E l_start (sd_s_start local_context l_start))
      N local_context l_start (sd_s_start local_context l_start)
      (sd_n_a L a_blocks l_start * sd_n_b L local_context a_blocks l_start)
      (sd_n_b L local_context a_blocks l_start))
    out

/-- The chunk starts visited by the loop `for (l = 0; l < L; l += a_blocks)`
(line 73). -/
def sd_chunks (L a_blocks : ℕ) : List ℕ :=
  (List.range (ceildiv L a_blocks)).map (fun j => j * a_blocks)

/-- `sliding_dot` (lines 59-103).  `A`, `B` are `(N, L, E)`; `out` is
`(N, L, local_context)`; kernels enqueued on one stream execute in program
order, so the fold over chunks models the loop faithfully. -/
def sliding_dot {α : Type} (a_blocks : ℕ) (write : ℚ → ℤ → ℤ → α)
    (A B : A3 ℚ) (out : A3 α) (N L E local_context : ℕ) : A3 α :=
  (sd_chunks L a_blocks).foldl
    (fun o l_start => sd_launch a_blocks write A B N L E local_context l_start o)
    out

/-!
## The tiled kernels (`local_copy_scaled`, lines 201-265, and
`local_copy_scaled_transpose`, lines 284-355)

Both kernels launch `N*H*ceildiv(L,32)*ceildiv(E,32)` blocks of `32*32`
threads (lines 408-417, 451-460, 492-501); the stride decomposition of
`blockIdx.x` (lines 208-215 / 292-299) is a bijection onto
`(n, h, lblock, eblock)` with `n < N`, `h < H`, so each output cell
`(n, h, l, e)` with `l < 32*ceildiv(L,32)` and `e < 32*ceildiv(E,32)` is
owned by exactly one thread: thread `(l % 32, e % 32)` of block
`(n, h, l / 32, e / 32)`.  The kernels are embedded by the per-cell
accumulation this unique owner performs.
-/

/-- The factor tile slot `s_factors[l_local*KB + j]` of `local_copy_scaled`,
loaded by thread `(l_local, e_local = j)` at window-chunk `k`
(lines 234-241); `l` is the thread's global length index. -/
def lcs_sfactor (factors : A4 ℚ) (n h : ℤ) (Lf S local_context : ℕ)
    (k : ℕ) (l : ℤ) (j : ℕ) : ℚ :=
  let scurrent : ℤ := l - (local_context / 2 : ℕ) + k + j
  if l < Lf ∧ k + j < local_context ∧ 0 ≤ scurrent ∧ scurrent < S then
    factors n h l (k + j)
  else 0

/-- The value tile slot `s_values[j*EB + e_local]` of `local_copy_scaled`
(double tile, lines 242-251): slots `j < 32` are the `s1` loads of thread
`(j, e_local)`, slots `32 ≤ j < 64` the `s2 = s1 + LB` loads of thread
`(j-32, e_local)`. -/
def lcs_svalue (values : A4 ℚ) (n h : ℤ) (S E local_context : ℕ)
    (k : ℕ) (lblock : ℕ) (j : ℕ) (e : ℤ) : ℚ :=
  if j < 32 then
    let s1 : ℤ := ((lblock * 32 + j : ℕ) : ℤ) - (local_context / 2 : ℕ) + k
    if e < E ∧ 0 ≤ s1 ∧ s1 < S then values n h s1 e else 0
  else
    let s2 : ℤ :=
      ((lblock * 32 + (j - 32) : ℕ) : ℤ) - (local_context / 2 : ℕ) + k + 32
    if e < E ∧ 0 ≤ s2 ∧ s2 < S then values n h s2 e else 0

/-- The per-chunk partial dot product of thread `(l_local, e_local)` of
`local_copy_scaled` (lines 254-259):
`result += s_factors[l_local*KB + k_local] * s_values[(k_local+l_local)*EB + e_local]`. -/
def lcs_result (factors values : A4 ℚ) (n h : ℤ) (Lf S E local_context : ℕ)
    (k : ℕ) (lblock l_local : ℕ) (e : ℤ) : ℚ :=
  ∑ k_local ∈ Finset.range 32,
    lcs_sfactor factors n h Lf S local_context k
        ((lblock * 32 + l_local : ℕ) : ℤ) k_local *
      lcs_svalue values n h S E local_context k lblock (l_local + k_local) e

/-- `local_copy_scaled` (lines 201-265) as the accumulation performed on each
output cell by its unique owning thread: the window loop
`for (k = 0; k < local_context; k += KB)` (line 232) accumulates one partial
dot product per chunk into `output[n][h][l][e]` (lines 260-262), guarded by
`l < factors.size(2) && e < values.size(3)`.  `Lf = factors.size(2)`,
`S = values.size(2)`, `E = values.size(3)`.  Cells not owned by any thread of
the grid, or whose thread fails the write guard, are untouched. -/
def local_copy_scaled (N H Lf S E local_context : ℕ)
    (factors values output : A4 ℚ) : A4 ℚ :=
  fun n h l e =>
    if 0 ≤ n ∧ n < N ∧ 0 ≤ h ∧ h < H ∧
        0 ≤ l ∧ l < 32 * ceildiv Lf 32 ∧ l < Lf ∧ 0 ≤ e ∧ e < E then
      output n h l e +
        ∑ i ∈ Finset.range (ceildiv local_context 32),
          lcs_result factors values n h Lf S E local_context (32 * i)
            (l.toNat / 32) (l.toNat % 32) e
    else output n h l e

/-- `IncreasingLK` (lines 268-274). -/
def IncreasingLK : ℕ → ℕ → ℕ → ℤ := fun k e_local _ => (k : ℤ) + e_local

/-- `ReverseLK` (lines 275-281). -/
def ReverseLK : ℕ → ℕ → ℕ → ℤ :=
  fun k e_local local_context => (local_context : ℤ) - k - e_local - 1

/-- The value tile slot `s_values[j*EB + e_local]` of
`local_copy_scaled_transpose` (double tile, lines 318-330): slots `j < 32`
are the `l` loads of thread `(j, e_local)`, slots `32 ≤ j < 64` the
`l2 = l + LB` loads of thread `(j-32, e_local)`.  The row bound is
`factors.size(2)` (`Lf`). -/
def lct_svalue (values : A4 ℚ) (n h : ℤ) (Lf E local_context : ℕ)
    (k : ℕ) (sblock : ℕ) (j : ℕ) (e : ℤ) : ℚ :=
  if j < 32 then
    let l : ℤ :=
      ((sblock * 32 + j : ℕ) : ℤ) - ((local_context - 1) / 2 : ℕ) + k
    if 0 ≤ l ∧ l < Lf ∧ e < E then values n h l e else 0
  else
    let l2 : ℤ :=
      ((sblock * 32 + (j - 32) : ℕ) : ℤ) - ((local_context - 1) / 2 : ℕ) + k + 32
    if 0 ≤ l2 ∧ l2 < Lf ∧ e < E then values n h l2 e else 0

/-- The factor tile slot `s_factors[s_local*KB + j]` of
`local_copy_scaled_transpose`, loaded by thread `(s_local, e_local = j)` at
window-chunk `k` (lines 332-340): `lcurrent = l + e_local`,
`kcurrent = k + e_local`, and the banded index is read through the policy
`t = lk_policy(k, e_local, local_context)`. -/
def lct_sfactor (factors : A4 ℚ) (n h : ℤ) (Lf local_context : ℕ)
    (lk_policy : ℕ → ℕ → ℕ → ℤ) (k : ℕ) (s : ℤ) (j : ℕ) : ℚ :=
  let l : ℤ := s - ((local_context - 1) / 2 : ℕ) + k
  let lcurrent : ℤ := l + j
  if 0 ≤ lcurrent ∧ lcurrent < Lf ∧ k + j < local_context then
    factors n h lcurrent (lk_policy k j local_context)
  else 0

/-- The per-chunk partial dot product of thread `(s_local, e_local)` of
`local_copy_scaled_transpose` (lines 343-348):
`result += s_values[(s_local+k_local)*EB + e_local] * s_factors[s_local*KB + k_local]`. -/
def lct_result (factors values : A4 ℚ) (n h : ℤ) (Lf E local_context : ℕ)
    (lk_policy : ℕ → ℕ → ℕ → ℤ) (k : ℕ) (sblock s_local : ℕ) (e : ℤ) : ℚ :=
  ∑ k_local ∈ Finset.range 32,
    lct_svalue values n h Lf E local_context k sblock (s_local + k_local) e *
      lct_sfactor factors n h Lf local_context lk_policy k
        ((sblock * 32 + s_local : ℕ) : ℤ) k_local

/-- `local_copy_scaled_transpose` (lines 284-355) as the accumulation
performed on each output cell `(n, h, s, e)` by its unique owning thread.
The write guard (line 350) is `s < values.size(2) && e < values.size(3)`;
the grid's length tiling comes from the caller's `L` which at both call
sites is `factors.size(2)` (`Lf`).  `Sv = values.size(2)`. -/
def local_copy_scaled_transpose (lk_policy : ℕ → ℕ → ℕ → ℤ)
    (N H Lf Sv E local_context : ℕ) (factors values output : A4 ℚ) : A4 ℚ :=
  fun n h s e =>
    if 0 ≤ n ∧ n < N ∧ 0 ≤ h ∧ h < H ∧
        0 ≤ s ∧ s < 32 * ceildiv Lf 32 ∧ s < Sv ∧ 0 ≤ e ∧ e < E then
      output n h s e +
        ∑ i ∈ Finset.range (ceildiv local_context 32),
          lct_result factors values n h Lf E local_context lk_policy (32 * i)
            (s.toNat / 32) (s.toNat % 32) e
    else output n h s e

/-!
## Entry points (lines 358-522)
-/

/-- `tensor.view({N*H, L, E})` of a contiguous rank-4 `(N, H, L, E)` tensor. -/
def view3 (H : ℕ) (t : A4 ℚ) : A3 ℚ := fun b l e => t (b / H) (b % H) l e

/-- `local_dot_product` (lines 358-387): allocate the output filled with
`-infinity`, run `sliding_dot` with `masked_lp_copy` on the `(N*H, L, E)`
views, return the output viewed back as `(N, H, L, local_context)`. -/
def local_dot_product (N H L E local_context : ℕ)
    (queries keys : A4 ℚ) (attn_mask : A2) (key_lengths : A1) : A4 SVal :=
  fun n h l k =>
    sliding_dot 64 (masked_lp_copy attn_mask key_lengths)
      (view3 H queries) (view3 H keys) (fun _ _ _ => SVal.ninf)
      (N * H) L E local_context (n * H + h) l k

/-- `local_dot_backward` (lines 390-434): `grad_queries` by
`local_copy_scaled` with `factors = grad`, `values = keys`;
`grad_keys` by `local_copy_scaled_transpose` with `factors = grad`,
`values = queries` and the `IncreasingLK` policy.  Both outputs are
zero-initialised (lines 405-406).  `key_lengths` is accepted and ignored. -/
def local_dot_backward (N H L E local_context : ℕ)
    (queries keys : A4 ℚ) (key_lengths : A1) (grad : A4 ℚ) :
    A4 ℚ × A4 ℚ :=
  ( local_copy_scaled N H L L E local_context grad keys (fun _ _ _ _ => 0),
    local_copy_scaled_transpose IncreasingLK N H L L E local_context
      grad queries (fun _ _ _ _ => 0) )

/-- `local_weighted_average` (lines 437-470): `local_copy_scaled` with
`factors = attention`, `values = values`, zero-initialised output. -/
def local_weighted_average (N H L local_context E : ℕ)
    (attention values : A4 ℚ) : A4 ℚ :=
  local_copy_scaled N H L L E local_context attention values
    (fun _ _ _ _ => 0)

/-- `local_weighted_average_backward` (lines 473-522): `grad_values` by
`local_copy_scaled_transpose` with `factors = attention`, `values = grad`
and the `ReverseLK` policy; `grad_attention` by `sliding_dot` with the
unmasked `lp_copy` selector on `A = grad`, `B = values`, zero-initialised.
Returns `(grad_attention, grad_values)`. -/
def local_weighted_average_backward (N H L local_context E : ℕ)
    (attention values grad : A4 ℚ) : A4 ℚ × A4 ℚ :=
  ( fun n h l k =>
      sliding_dot 64 lp_copy (view3 H grad) (view3 H values)
        (fun _ _ _ => (0 : ℚ)) (N * H) L E local_context (n * H + h) l k,
    local_copy_scaled_transpose ReverseLK N H L L E local_context
      attention grad (fun _ _ _ _ => 0) )


/-!
## Single-writer lookup lemmas

Each selection-kernel launch writes every output cell at most once (the map
from thread index to target cell is injective), so the value of a cell after
the thread fold is either its previous value or the unique writer's value.
-/

theorem foldl_cell_unchanged {α : Type} (f : A3 α → ℕ → A3 α) (xs : List ℕ)
    (st : A3 α) (a b c : ℤ)
    (h : ∀ i ∈ xs, ∀ s : A3 α, f s i a b c = s a b c) :
    (xs.foldl f st) a b c = st a b c := by
  induction xs generalizing st with
  | nil => rfl
  | cons x xs ih =>
      rw [List.foldl_cons, ih _ (fun i hi s => h i (List.mem_cons_of_mem _ hi) s)]
      exact h x (List.mem_cons_self _ _) st

theorem foldl_cell_write {α : Type} (f : A3 α → ℕ → A3 α) (xs : List ℕ)
    (st : A3 α) (a b c : ℤ) (i₀ : ℕ) (v : α)
    (hmem : i₀ ∈ xs) (hnodup : xs.Nodup)
    (hw : ∀ s : A3 α, f s i₀ a b c = v)
    (hmiss : ∀ i ∈ xs, i ≠ i₀ → ∀ s : A3 α, f s i a b c = s a b c) :
    (xs.foldl f st) a b c = v := by
  revert hmem hnodup hmiss
  induction xs generalizing st with
  | nil => intro hmem _ _; cases hmem
  | cons x xs ih =>
      intro hmem hnodup hmiss
      rw [List.foldl_cons]
      rcases List.mem_cons.mp hmem with h0 | h0
      · subst h0
        have hnot : i₀ ∉ xs := (List.nodup_cons.mp hnodup).1
        rw [foldl_cell_unchanged _ _ _ _ _ _
          (fun i hi s => hmiss i (List.mem_cons_of_mem _ hi)
            (fun he => hnot (he ▸ hi)) s)]
        exact hw st
      · exact ih (f st x) h0 (List.nodup_cons.mp hnodup).2
          (fun i hi hne s => hmiss i (List.mem_cons_of_mem _ hi) hne s)

theorem encode_sub_lt (lo so na nb : ℕ) (hlo : lo < na) (hso : so < nb) :
    lo * nb + so < na * nb := by
  calc lo * nb + so < lo * nb + nb := by omega
    _ = (lo + 1) * nb := by ring
    _ ≤ na * nb := Nat.mul_le_mul_right nb hlo

/-- The thread with flat index `nn*(na*nb) + lo*nb + so` (for `nn < N`,
`lo < na`, `so < nb`) recovers exactly `(nn, lo, so)` and, if its relative
index is inside the window, stores at `output[nn][l_start+lo][k]`. -/
theorem copy_step_writes {α : Type} (write : ℚ → ℤ → ℤ → α)
    (buffer : ℕ → ℕ → ℕ → ℚ) (N C : ℕ) (l_start s_start : ℤ)
    (na nb nn lo so : ℕ) (hn : nn < N) (hlo : lo < na) (hso : so < nb)
    (st : A3 α) :
    copy_step write buffer N C l_start s_start (na * nb) nb st
        (nn * (na * nb) + lo * nb + so) =
      if s_start + so - (l_start + lo) + ((C / 2 : ℕ) : ℤ) < 0 ∨
          (C : ℤ) ≤ s_start + so - (l_start + lo) + ((C / 2 : ℕ) : ℤ) then st
      else upd3 st nn (l_start + lo)
        (s_start + so - (l_start + lo) + ((C / 2 : ℕ) : ℤ))
        (write (buffer nn lo so) (l_start + lo) (s_start + so)) := by
  have hnb : 0 < nb := by omega
  have h1 : lo * nb + so < na * nb := encode_sub_lt lo so na nb hlo hso
  have hX : 0 < na * nb := by omega
  have hdiv : (nn * (na * nb) + lo * nb + so) / (na * nb) = nn := by
    rw [add_assoc, mul_comm nn (na * nb), Nat.mul_add_div hX,
      Nat.div_eq_of_lt h1, add_zero]
  have hrem : nn * (na * nb) + lo * nb + so - nn * (na * nb) = lo * nb + so := by
    rw [add_assoc, Nat.add_sub_cancel_left]
  have hdiv2 : (lo * nb + so) / nb = lo := by
    rw [mul_comm lo nb, Nat.mul_add_div hnb, Nat.div_eq_of_lt hso, add_zero]
  have hrem2 : lo * nb + so - lo * nb = so := by
    rw [Nat.add_sub_cancel_left]
  simp only [copy_step, hdiv, hrem, hdiv2, hrem2]
  rw [if_neg (by omega : ¬ N ≤ nn)]

/-- Either a thread leaves a given cell alone, or it is the unique encoded
thread of that cell and the cell is a legal banded target. -/
theorem copy_step_cases {α : Type} (write : ℚ → ℤ → ℤ → α)
    (buffer : ℕ → ℕ → ℕ → ℚ) (N C : ℕ) (l_start s_start : ℤ)
    (na nb : ℕ) (hna : 0 < na) (hnb : 0 < nb) (idx : ℕ) (st : A3 α)
    (a b c : ℤ) :
    copy_step write buffer N C l_start s_start (na * nb) nb st idx a b c =
        st a b c ∨
    ∃ nn lo so : ℕ, nn < N ∧ lo < na ∧ so < nb ∧
      idx = nn * (na * nb) + lo * nb + so ∧
      a = nn ∧ b = l_start + lo ∧
      c = s_start + so - (l_start + lo) + ((C / 2 : ℕ) : ℤ) ∧
      0 ≤ c ∧ c < C := by
  have hX : 0 < na * nb := by positivity
  by_cases hN : N ≤ idx / (na * nb)
  · left; simp only [copy_step, if_pos hN]
  · have e1 := Nat.div_add_mod idx (na * nb)
    have e2 := Nat.div_add_mod (idx % (na * nb)) nb
    have h_idx1 : idx - idx / (na * nb) * (na * nb) = idx % (na * nb) := by
      rw [mul_comm (idx / (na * nb)) (na * nb)]; omega
    have h_idx2 : idx % (na * nb) - idx % (na * nb) / nb * nb =
        idx % (na * nb) % nb := by
      rw [mul_comm (idx % (na * nb) / nb) nb]; omega
    have hlo : idx % (na * nb) / nb < na :=
      (Nat.div_lt_iff_lt_mul hnb).mpr (Nat.mod_lt _ hX)
    have hso : idx % (na * nb) % nb < nb := Nat.mod_lt _ hnb
    have hidx : idx = idx / (na * nb) * (na * nb) +
        idx % (na * nb) / nb * nb + idx % (na * nb) % nb := by
      rw [mul_comm (idx / (na * nb)) (na * nb),
        mul_comm (idx % (na * nb) / nb) nb]
      omega
    simp only [copy_step, h_idx1, h_idx2]
    rw [if_neg hN]
    by_cases hk : s_start + (idx % (na * nb) % nb : ℕ) -
        (l_start + (idx % (na * nb) / nb : ℕ)) + ((C / 2 : ℕ) : ℤ) < 0 ∨
        (C : ℤ) ≤ s_start + (idx % (na * nb) % nb : ℕ) -
          (l_start + (idx % (na * nb) / nb : ℕ)) + ((C / 2 : ℕ) : ℤ)
    · left; rw [if_pos hk]
    · rw [if_neg hk]
      by_cases hcell : a = (idx / (na * nb) : ℕ) ∧
          b = l_start + (idx % (na * nb) / nb : ℕ) ∧
          c = s_start + (idx % (na * nb) % nb : ℕ) -
            (l_start + (idx % (na * nb) / nb : ℕ)) + ((C / 2 : ℕ) : ℤ)
      · right
        refine ⟨idx / (na * nb), idx % (na * nb) / nb, idx % (na * nb) % nb,
          by omega, hlo, hso, hidx, hcell.1, hcell.2.1, hcell.2.2, ?_, ?_⟩
        · rw [hcell.2.2]; omega
        · rw [hcell.2.2]; omega
      · left; exact if_neg hcell
  -- the final `if_neg hcell` addresses the `upd3` cell test

/-- Characterisation of one chunk iteration of `sliding_dot`: a cell
`(b, l, k)` is (re)written exactly when it belongs to this chunk's query
range, its relative index is inside the window, and its absolute key index
is inside this chunk's clipped key range; the written value is the dot
product plus whatever the selection functor adds. -/
theorem sd_launch_apply {α : Type} (ab : ℕ) (hab : 0 < ab)
    (write : ℚ → ℤ → ℤ → α) (A B : A3 ℚ) (N L E C : ℕ) (l_start : ℕ)
    (hl : l_start < L) (out : A3 α) (b l k : ℤ) :
    sd_launch ab write A B N L E C l_start out b l k =
      if 0 ≤ b ∧ b < N ∧ (l_start : ℤ) ≤ l ∧
          l < (l_start : ℤ) + sd_n_a L ab l_start ∧ 0 ≤ k ∧ k < C ∧
          sd_s_start C l_start ≤ l + k - ((C / 2 : ℕ) : ℤ) ∧
          l + k - ((C / 2 : ℕ) : ℤ) < sd_s_end L C ab l_start then
        write (∑ e ∈ Finset.range E, A b l e * B b (l + k - ((C / 2 : ℕ) : ℤ)) e)
          l (l + k - ((C / 2 : ℕ) : ℤ))
      else out b l k := by
  have hss0 : 0 ≤ sd_s_start C l_start := le_max_left _ _
  have hselt : sd_s_start C l_start < sd_s_end L C ab l_start := by
    simp only [sd_s_start, sd_s_end]
    omega
  have hnbz : sd_s_start C l_start + (sd_n_b L C ab l_start : ℤ) =
      sd_s_end L C ab l_start := by
    simp only [sd_n_b]
    omega
  have hna1 : 0 < sd_n_a L ab l_start := by
    simp only [sd_n_a]; omega
  have hnb1 : 0 < sd_n_b L C ab l_start := by omega
  set na := sd_n_a L ab l_start with hna_def
  set nb := sd_n_b L C ab l_start with hnb_def
  set ss := sd_s_start C l_start with hss_def
  set se := sd_s_end L C ab l_start with hse_def
  set buf := sd_buffer A B E l_start ss with hbuf_def
  simp only [sd_launch, ← hna_def, ← hnb_def, ← hss_def, ← hbuf_def]
  set T := ceildiv (N * (na * nb)) 1024 * 1024 with hT_def
  have hTge : N * (na * nb) ≤ T := by
    rw [hT_def]; simp only [ceildiv]; omega
  by_cases hP : 0 ≤ b ∧ b < N ∧ (l_start : ℤ) ≤ l ∧
      l < (l_start : ℤ) + na ∧ 0 ≤ k ∧ k < C ∧
      ss ≤ l + k - ((C / 2 : ℕ) : ℤ) ∧ l + k - ((C / 2 : ℕ) : ℤ) < se
  · rw [if_pos hP]
    obtain ⟨hb0, hbN, hll, hlna, hk0, hkC, hsss, hsse⟩ := hP
    obtain ⟨bn, rfl⟩ : ∃ bn : ℕ, b = (bn : ℤ) :=
      ⟨b.toNat, by omega⟩
    obtain ⟨loff, rfl⟩ : ∃ lo : ℕ, l = (l_start : ℤ) + lo :=
      ⟨(l - l_start).toNat, by omega⟩
    obtain ⟨soff, hsoff⟩ : ∃ so : ℕ,
        ((l_start : ℤ) + loff) + k - ((C / 2 : ℕ) : ℤ) = ss + so :=
      ⟨(((l_start : ℤ) + loff) + k - ((C / 2 : ℕ) : ℤ) - ss).toNat, by omega⟩
    have hbn_lt : bn < N := by omega
    have hloff_lt : loff < na := by omega
    have hsoff_lt : soff < nb := by omega
    apply foldl_cell_write _ _ _ _ _ _ (bn * (na * nb) + loff * nb + soff)
    · apply List.mem_range.mpr
      have h1 : loff * nb + soff < na * nb :=
        encode_sub_lt loff soff na nb hloff_lt hsoff_lt
      have h2 : bn * (na * nb) + (loff * nb + soff) < N * (na * nb) :=
        encode_sub_lt bn (loff * nb + soff) N (na * nb) hbn_lt h1
      omega
    · exact List.nodup_range T
    · intro st
      rw [copy_step_writes write buf N C l_start ss na nb bn loff soff
        hbn_lt hloff_lt hsoff_lt st]
      have hkeq : ss + (soff : ℤ) - ((l_start : ℤ) + loff) + ((C / 2 : ℕ) : ℤ)
          = k := by omega
      rw [hkeq, if_neg (by omega : ¬ (k < 0 ∨ (C : ℤ) ≤ k))]
      simp only [upd3, eq_self_iff_true, true_and, and_self, if_true]
      rw [hbuf_def]
      simp only [sd_buffer]
      rw [← hsoff]
    · intro i hi hne st
      rcases copy_step_cases write buf N C l_start ss na nb hna1 hnb1 i st
          (bn : ℤ) ((l_start : ℤ) + loff) k with
        hcase | ⟨nn, lo, so, hnn, hlo2, hso2, hieq, hbeq, hleq, hceq, hc0, hcC⟩
      · exact hcase
      · exfalso
        apply hne
        have e1 : nn = bn := by omega
        have e2 : lo = loff := by omega
        have e3 : so = soff := by omega
        rw [hieq, e1, e2, e3]
  · rw [if_neg hP]
    apply foldl_cell_unchanged
    intro i hi st
    rcases copy_step_cases write buf N C l_start ss na nb hna1 hnb1 i st
        b l k with
      hcase | ⟨nn, lo, so, hnn, hlo2, hso2, hieq, hbeq, hleq, hceq, hc0, hcC⟩
    · exact hcase
    · exfalso
      apply hP
      refine ⟨by omega, by omega, by omega, by omega, hc0, hcC, by omega, by omega⟩

/-- Full characterisation of `sliding_dot` with the default `a_blocks = 64`
used by every call site: cell `(b, l, k)` of the output holds the selected
dot product exactly when all of `b`, `l`, `k` and the absolute key index
`s = l + k - local_context/2` are in range, and is untouched otherwise. -/
theorem sliding_dot_apply {α : Type} (write : ℚ → ℤ → ℤ → α) (A B : A3 ℚ)
    (out : A3 α) (N L E C : ℕ) (b l k : ℤ) :
    sliding_dot 64 write A B out N L E C b l k =
      if 0 ≤ b ∧ b < N ∧ 0 ≤ l ∧ l < L ∧ 0 ≤ k ∧ k < C ∧
          0 ≤ l + k - ((C / 2 : ℕ) : ℤ) ∧ l + k - ((C / 2 : ℕ) : ℤ) < L then
        write (∑ e ∈ Finset.range E, A b l e * B b (l + k - ((C / 2 : ℕ) : ℤ)) e)
          l (l + k - ((C / 2 : ℕ) : ℤ))
      else out b l k := by
  simp only [sliding_dot]
  by_cases hF : 0 ≤ b ∧ b < N ∧ 0 ≤ l ∧ l < L ∧ 0 ≤ k ∧ k < C ∧
      0 ≤ l + k - ((C / 2 : ℕ) : ℤ) ∧ l + k - ((C / 2 : ℕ) : ℤ) < L
  · rw [if_pos hF]
    obtain ⟨hb0, hbN, hl0, hlL, hk0, hkC, hs0, hsL⟩ := hF
    apply foldl_cell_write _ _ _ _ _ _ (l.toNat / 64 * 64)
    · apply List.mem_map.mpr
      refine ⟨l.toNat / 64, List.mem_range.mpr ?_, rfl⟩
      simp only [ceildiv]
      omega
    · exact List.Nodup.map (fun a c h => by omega) (List.nodup_range _)
    · intro st
      show sd_launch 64 write A B N L E C (l.toNat / 64 * 64) st b l k = _
      rw [sd_launch_apply 64 (by norm_num) write A B N L E C _ (by omega) st b l k]
      rw [if_pos]
      refine ⟨hb0, hbN, by omega, ?_, hk0, hkC, ?_, ?_⟩ <;>
        (simp only [sd_n_a, sd_s_start, sd_s_end]; push_cast; omega)
    · intro i hi hne st
      obtain ⟨j, hj, rfl⟩ := List.mem_map.mp hi
      have hjr := List.mem_range.mp hj
      show sd_launch 64 write A B N L E C (j * 64) st b l k = _
      rw [sd_launch_apply 64 (by norm_num) write A B N L E C _
        (by simp only [ceildiv] at hjr; omega) st b l k]
      rw [if_neg]
      rintro ⟨-, -, h3, h4, -, -, -, -⟩
      apply hne
      simp only [sd_n_a] at h4
      push_cast at h3 h4
      omega
  · rw [if_neg hF]
    apply foldl_cell_unchanged
    intro i hi st
    obtain ⟨j, hj, rfl⟩ := List.mem_map.mp hi
    have hjr := List.mem_range.mp hj
    show sd_launch 64 write A B N L E C (j * 64) st b l k = _
    rw [sd_launch_apply 64 (by norm_num) write A B N L E C _
      (by simp only [ceildiv] at hjr; omega) st b l k]
    rw [if_neg]
    rintro ⟨g1, g2, g3, g4, g5, g6, g7, g8⟩
    apply hF
    simp only [sd_n_a] at g4
    simp only [sd_s_start] at g7
    simp only [sd_s_end] at g8
    push_cast at g3 g4 g7 g8
    refine ⟨g1, g2, by omega, by omega, g5, g6, by omega, by omega⟩

/-!
## Closed forms of the tiled kernels
-/

theorem ite_zero_mul_ite_zero_eq {P Q : Prop} [Decidable P] [Decidable Q]
    (a c : ℚ) :
    (if P then a else 0) * (if Q then c else 0) =
      if P ∧ Q then a * c else 0 := by
  by_cases hP : P <;> by_cases hQ : Q <;> simp [hP, hQ]

theorem sum_range_blocks {M : Type} [AddCommMonoid M] (g : ℕ → M) (B nc : ℕ) :
    ∑ i ∈ Finset.range nc, ∑ j ∈ Finset.range B, g (B * i + j) =
      ∑ m ∈ Finset.range (B * nc), g m := by
  induction nc with
  | zero => simp
  | succ nc ih =>
      rw [Finset.sum_range_succ, ih, Nat.mul_succ]
      conv_rhs => rw [Finset.range_eq_Ico]
      rw [← Finset.sum_Ico_consecutive g (Nat.zero_le (B * nc))
        (Nat.le_add_right _ B)]
      rw [← Finset.range_eq_Ico]
      congr 1
      rw [Finset.sum_Ico_eq_sum_range]
      congr 2
      omega

/-- Both halves of the double value tile of `local_copy_scaled` load the same
row formula. -/
theorem lcs_svalue_eq (values : A4 ℚ) (n h : ℤ) (S E C : ℕ)
    (k : ℕ) (lblock : ℕ) (j : ℕ) (e : ℤ) :
    lcs_svalue values n h S E C k lblock j e =
      if e < E ∧ 0 ≤ ((lblock * 32 + j : ℕ) : ℤ) - ((C / 2 : ℕ) : ℤ) + k ∧
          ((lblock * 32 + j : ℕ) : ℤ) - ((C / 2 : ℕ) : ℤ) + k < S then
        values n h (((lblock * 32 + j : ℕ) : ℤ) - ((C / 2 : ℕ) : ℤ) + k) e
      else 0 := by
  simp only [lcs_svalue]
  by_cases h32 : j < 32
  · rw [if_pos h32]
  · rw [if_neg h32]
    have he : ((lblock * 32 + (j - 32) : ℕ) : ℤ) - ((C / 2 : ℕ) : ℤ) + k + 32 =
        ((lblock * 32 + j : ℕ) : ℤ) - ((C / 2 : ℕ) : ℤ) + k := by
      push_cast
      omega
    rw [he]

/-- One window-chunk of `local_copy_scaled` in terms of the absolute window
index `k + j`. -/
theorem lcs_result_eq (factors values : A4 ℚ) (n h : ℤ) (Lf S E C : ℕ)
    (k : ℕ) (lblock l_local : ℕ) (e : ℤ) :
    lcs_result factors values n h Lf S E C k lblock l_local e =
      ∑ j ∈ Finset.range 32,
        (if ((lblock * 32 + l_local : ℕ) : ℤ) < Lf ∧ k + j < C ∧ e < E ∧
            0 ≤ ((lblock * 32 + l_local : ℕ) : ℤ) - ((C / 2 : ℕ) : ℤ) + (k + j) ∧
            ((lblock * 32 + l_local : ℕ) : ℤ) - ((C / 2 : ℕ) : ℤ) + (k + j) < S
          then
            factors n h ((lblock * 32 + l_local : ℕ) : ℤ) (k + j) *
              values n h
                (((lblock * 32 + l_local : ℕ) : ℤ) - ((C / 2 : ℕ) : ℤ) + (k + j)) e
          else 0) := by
  simp only [lcs_result]
  apply Finset.sum_congr rfl
  intro j hj
  rw [lcs_svalue_eq]
  simp only [lcs_sfactor]
  have hrow : ((lblock * 32 + (l_local + j) : ℕ) : ℤ) - ((C / 2 : ℕ) : ℤ) + k =
      ((lblock * 32 + l_local : ℕ) : ℤ) - ((C / 2 : ℕ) : ℤ) + (k + j) := by
    push_cast
    ring
  have hsc : ((lblock * 32 + l_local : ℕ) : ℤ) - ((C / 2 : ℕ) : ℤ) + k + j =
      ((lblock * 32 + l_local : ℕ) : ℤ) - ((C / 2 : ℕ) : ℤ) + (k + j) := by
    push_cast
    ring
  rw [hrow, hsc, ite_zero_mul_ite_zero_eq]
  split_ifs with h1 h2 h3
  · rfl
  · exact absurd ⟨h1.1.1, h1.1.2.1, h1.2.1, h1.1.2.2.1, h1.1.2.2.2⟩ h2
  · exact absurd ⟨⟨h3.1, h3.2.1, h3.2.2.2.1, h3.2.2.2.2⟩,
      h3.2.2.1, h3.2.2.2.1, h3.2.2.2.2⟩ h1
  · rfl

/-- The whole window loop of `local_copy_scaled`, flattened over the window. -/
theorem lcs_chunks_eq (factors values : A4 ℚ) (n h : ℤ) (Lf S E C : ℕ)
    (lblock l_local : ℕ) (e : ℤ) :
    ∑ i ∈ Finset.range (ceildiv C 32),
      lcs_result factors values n h Lf S E C (32 * i) lblock l_local e =
    ∑ kk ∈ Finset.range C,
      (if ((lblock * 32 + l_local : ℕ) : ℤ) < Lf ∧ e < E ∧
          0 ≤ ((lblock * 32 + l_local : ℕ) : ℤ) - ((C / 2 : ℕ) : ℤ) + kk ∧
          ((lblock * 32 + l_local : ℕ) : ℤ) - ((C / 2 : ℕ) : ℤ) + kk < S then
        factors n h ((lblock * 32 + l_local : ℕ) : ℤ) kk *
          values n h
            (((lblock * 32 + l_local : ℕ) : ℤ) - ((C / 2 : ℕ) : ℤ) + kk) e
      else 0) := by
  set g : ℕ → ℚ := fun m =>
    if ((lblock * 32 + l_local : ℕ) : ℤ) < Lf ∧ m < C ∧ e < E ∧
        0 ≤ ((lblock * 32 + l_local : ℕ) : ℤ) - ((C / 2 : ℕ) : ℤ) + m ∧
        ((lblock * 32 + l_local : ℕ) : ℤ) - ((C / 2 : ℕ) : ℤ) + m < S then
      factors n h ((lblock * 32 + l_local : ℕ) : ℤ) m *
        values n h
          (((lblock * 32 + l_local : ℕ) : ℤ) - ((C / 2 : ℕ) : ℤ) + m) e
    else 0 with hg
  trans (∑ i ∈ Finset.range (ceildiv C 32), ∑ j ∈ Finset.range 32,
    g (32 * i + j))
  · exact Finset.sum_congr rfl (fun i _ =>
      lcs_result_eq factors values n h Lf S E C (32 * i) lblock l_local e)
  · rw [sum_range_blocks g 32 (ceildiv C 32)]
    have hsub : Finset.range C ⊆ Finset.range (32 * ceildiv C 32) := by
      apply Finset.range_subset.mpr
      simp only [ceildiv]
      omega
    have hvan : ∀ x ∈ Finset.range (32 * ceildiv C 32),
        x ∉ Finset.range C → g x = 0 := by
      intro x _ hx
      simp only [hg]
      rw [if_neg]
      intro hcond
      exact hx (Finset.mem_range.mpr hcond.2.1)
    rw [← Finset.sum_subset hsub hvan]
    apply Finset.sum_congr rfl
    intro kk hkk
    have hkkC : kk < C := Finset.mem_range.mp hkk
    simp only [hg]
    split_ifs with h1 h2 h3
    · rfl
    · exact absurd ⟨h1.1, h1.2.2.1, h1.2.2.2⟩ h2
    · exact absurd ⟨h3.1, hkkC, h3.2⟩ h1
    · rfl

/-- Closed form of `local_copy_scaled` on in-range cells: the windowed
gather-reduce, with out-of-range key rows contributing zero. -/
theorem local_copy_scaled_apply (N H Lf S E C : ℕ)
    (factors values output : A4 ℚ) (n h l e : ℤ)
    (hn0 : 0 ≤ n) (hnN : n < N) (hh0 : 0 ≤ h) (hhH : h < H)
    (hl0 : 0 ≤ l) (hlLf : l < Lf) (he0 : 0 ≤ e) (heE : e < E) :
    local_copy_scaled N H Lf S E C factors values output n h l e =
      output n h l e + ∑ kk ∈ Finset.range C,
        (if 0 ≤ l - ((C / 2 : ℕ) : ℤ) + kk ∧ l - ((C / 2 : ℕ) : ℤ) + kk < S then
          factors n h l kk * values n h (l - ((C / 2 : ℕ) : ℤ) + kk) e
        else 0) := by
  simp only [local_copy_scaled]
  split_ifs with hcond
  · congr 1
    rw [lcs_chunks_eq]
    have hlnat : ((l.toNat / 32 * 32 + l.toNat % 32 : ℕ) : ℤ) = l := by omega
    apply Finset.sum_congr rfl
    intro kk hkk
    rw [hlnat]
    split_ifs with h1 h2 h3
    · rfl
    · exact absurd ⟨h1.2.2.1, h1.2.2.2⟩ h2
    · exact absurd ⟨hlLf, heE, h3⟩ h1
    · rfl
  · exact absurd ⟨hn0, hnN, hh0, hhH, hl0,
      by simp only [ceildiv]; push_cast; omega, hlLf, he0, heE⟩ hcond

/-- Both halves of the double value tile of `local_copy_scaled_transpose`
load the same row formula. -/
theorem lct_svalue_eq (values : A4 ℚ) (n h : ℤ) (Lf E C : ℕ)
    (k : ℕ) (sblock : ℕ) (j : ℕ) (e : ℤ) :
    lct_svalue values n h Lf E C k sblock j e =
      if 0 ≤ ((sblock * 32 + j : ℕ) : ℤ) - (((C - 1) / 2 : ℕ) : ℤ) + k ∧
          ((sblock * 32 + j : ℕ) : ℤ) - (((C - 1) / 2 : ℕ) : ℤ) + k < Lf ∧
          e < E then
        values n h (((sblock * 32 + j : ℕ) : ℤ) - (((C - 1) / 2 : ℕ) : ℤ) + k) e
      else 0 := by
  simp only [lct_svalue]
  by_cases h32 : j < 32
  · rw [if_pos h32]
  · rw [if_neg h32]
    have he : ((sblock * 32 + (j - 32) : ℕ) : ℤ) - (((C - 1) / 2 : ℕ) : ℤ) + k
          + 32 =
        ((sblock * 32 + j : ℕ) : ℤ) - (((C - 1) / 2 : ℕ) : ℤ) + k := by
      push_cast
      omega
    rw [he]

/-- One window-chunk of `local_copy_scaled_transpose` in terms of the
absolute window index `k + j`, for any policy that factors through it. -/
theorem lct_result_eq (factors values : A4 ℚ) (n h : ℤ) (Lf E C : ℕ)
    (lk_policy : ℕ → ℕ → ℕ → ℤ) (t : ℕ → ℤ)
    (hpol : ∀ a c : ℕ, lk_policy a c C = t (a + c))
    (k : ℕ) (sblock s_local : ℕ) (e : ℤ) :
    lct_result factors values n h Lf E C lk_policy k sblock s_local e =
      ∑ j ∈ Finset.range 32,
        (if 0 ≤ ((sblock * 32 + s_local : ℕ) : ℤ) -
              (((C - 1) / 2 : ℕ) : ℤ) + (k + j) ∧
            ((sblock * 32 + s_local : ℕ) : ℤ) -
              (((C - 1) / 2 : ℕ) : ℤ) + (k + j) < Lf ∧
            k + j < C ∧ e < E then
          values n h
              (((sblock * 32 + s_local : ℕ) : ℤ) -
                (((C - 1) / 2 : ℕ) : ℤ) + (k + j)) e *
            factors n h
              (((sblock * 32 + s_local : ℕ) : ℤ) -
                (((C - 1) / 2 : ℕ) : ℤ) + (k + j)) (t (k + j))
        else 0) := by
  simp only [lct_result]
  apply Finset.sum_congr rfl
  intro j hj
  rw [lct_svalue_eq]
  simp only [lct_sfactor, hpol]
  have hrow : ((sblock * 32 + (s_local + j) : ℕ) : ℤ) -
      (((C - 1) / 2 : ℕ) : ℤ) + k =
      ((sblock * 32 + s_local : ℕ) : ℤ) - (((C - 1) / 2 : ℕ) : ℤ) + (k + j) := by
    push_cast
    ring
  have hlc : ((sblock * 32 + s_local : ℕ) : ℤ) - (((C - 1) / 2 : ℕ) : ℤ) + k
      + j =
      ((sblock * 32 + s_local : ℕ) : ℤ) - (((C - 1) / 2 : ℕ) : ℤ) + (k + j) := by
    push_cast
    ring
  rw [hrow, hlc, ite_zero_mul_ite_zero_eq]
  split_ifs with h1 h2 h3
  · rfl
  · exact absurd ⟨h1.1.1, h1.1.2.1, h1.2.2.2, h1.1.2.2⟩ h2
  · exact absurd ⟨⟨h3.1, h3.2.1, h3.2.2.2⟩, h3.1, h3.2.1, h3.2.2.1⟩ h1
  · rfl

/-- The whole window loop of `local_copy_scaled_transpose`, flattened. -/
theorem lct_chunks_eq (factors values : A4 ℚ) (n h : ℤ) (Lf E C : ℕ)
    (lk_policy : ℕ → ℕ → ℕ → ℤ) (t : ℕ → ℤ)
    (hpol : ∀ a c : ℕ, lk_policy a c C = t (a + c))
    (sblock s_local : ℕ) (e : ℤ) :
    ∑ i ∈ Finset.range (ceildiv C 32),
      lct_result factors values n h Lf E C lk_policy (32 * i) sblock s_local e =
    ∑ kk ∈ Finset.range C,
      (if 0 ≤ ((sblock * 32 + s_local : ℕ) : ℤ) -
            (((C - 1) / 2 : ℕ) : ℤ) + kk ∧
          ((sblock * 32 + s_local : ℕ) : ℤ) -
            (((C - 1) / 2 : ℕ) : ℤ) + kk < Lf ∧ e < E then
        values n h
            (((sblock * 32 + s_local : ℕ) : ℤ) -
              (((C - 1) / 2 : ℕ) : ℤ) + kk) e *
          factors n h
            (((sblock * 32 + s_local : ℕ) : ℤ) -
              (((C - 1) / 2 : ℕ) : ℤ) + kk) (t kk)
      else 0) := by
  set g : ℕ → ℚ := fun m =>
    if 0 ≤ ((sblock * 32 + s_local : ℕ) : ℤ) - (((C - 1) / 2 : ℕ) : ℤ) + m ∧
        ((sblock * 32 + s_local : ℕ) : ℤ) - (((C - 1) / 2 : ℕ) : ℤ) + m < Lf ∧
        m < C ∧ e < E then
      values n h
          (((sblock * 32 + s_local : ℕ) : ℤ) -
            (((C - 1) / 2 : ℕ) : ℤ) + m) e *
        factors n h
          (((sblock * 32 + s_local : ℕ) : ℤ) -
            (((C - 1) / 2 : ℕ) : ℤ) + m) (t m)
    else 0 with hg
  trans (∑ i ∈ Finset.range (ceildiv C 32), ∑ j ∈ Finset.range 32,
    g (32 * i + j))
  · exact Finset.sum_congr rfl (fun i _ =>
      lct_result_eq factors values n h Lf E C lk_policy t hpol (32 * i)
        sblock s_local e)
  · rw [sum_range_blocks g 32 (ceildiv C 32)]
    have hsub : Finset.range C ⊆ Finset.range (32 * ceildiv C 32) := by
      apply Finset.range_subset.mpr
      simp only [ceildiv]
      omega
    have hvan : ∀ x ∈ Finset.range (32 * ceildiv C 32),
        x ∉ Finset.range C → g x = 0 := by
      intro x _ hx
      simp only [hg]
      rw [if_neg]
      intro hcond
      exact hx (Finset.mem_range.mpr hcond.2.2.1)
    rw [← Finset.sum_subset hsub hvan]
    apply Finset.sum_congr rfl
    intro kk hkk
    have hkkC : kk < C := Finset.mem_range.mp hkk
    simp only [hg]
    split_ifs with h1 h2 h3
    · rfl
    · exact absurd ⟨h1.1, h1.2.1, h1.2.2.2⟩ h2
    · exact absurd ⟨h3.1, h3.2.1, hkkC, h3.2.2⟩ h1
    · rfl

/-- Closed form of `local_copy_scaled_transpose` on in-range cells, for any
policy factoring through the absolute window index. -/
theorem local_copy_scaled_transpose_apply
    (lk_policy : ℕ → ℕ → ℕ → ℤ) (t : ℕ → ℤ)
    (N H Lf Sv E C : ℕ)
    (hpol : ∀ a c : ℕ, lk_policy a c C = t (a + c))
    (factors values output : A4 ℚ) (n h s e : ℤ)
    (hn0 : 0 ≤ n) (hnN : n < N) (hh0 : 0 ≤ h) (hhH : h < H)
    (hs0 : 0 ≤ s) (hsLf : s < Lf) (hsSv : s < Sv) (he0 : 0 ≤ e) (heE : e < E) :
    local_copy_scaled_transpose lk_policy N H Lf Sv E C factors values output
        n h s e =
      output n h s e + ∑ kk ∈ Finset.range C,
        (if 0 ≤ s - (((C - 1) / 2 : ℕ) : ℤ) + kk ∧
            s - (((C - 1) / 2 : ℕ) : ℤ) + kk < Lf then
          values n h (s - (((C - 1) / 2 : ℕ) : ℤ) + kk) e *
            factors n h (s - (((C - 1) / 2 : ℕ) : ℤ) + kk) (t kk)
        else 0) := by
  simp only [local_copy_scaled_transpose]
  split_ifs with hcond
  · congr 1
    rw [lct_chunks_eq factors values n h Lf E C lk_policy t hpol]
    have hsnat : ((s.toNat / 32 * 32 + s.toNat % 32 : ℕ) : ℤ) = s := by omega
    apply Finset.sum_congr rfl
    intro kk hkk
    rw [hsnat]
    split_ifs with h1 h2 h3
    · rfl
    · exact absurd ⟨h1.1, h1.2.1⟩ h2
    · exact absurd ⟨h3.1, h3.2, heE⟩ h1
    · rfl
  · exact absurd ⟨hn0, hnN, hh0, hhH, hs0,
      by simp only [ceildiv]; push_cast; omega, hsSv, he0, heE⟩ hcond

theorem IncreasingLK_eq (C : ℕ) :
    ∀ a c : ℕ, IncreasingLK a c C = ((a + c : ℕ) : ℤ) := by
  intro a c
  simp only [IncreasingLK]
  push_cast
  ring

theorem ReverseLK_eq (C : ℕ) :
    ∀ a c : ℕ, ReverseLK a c C = (C : ℤ) - ((a + c : ℕ) : ℤ) - 1 := by
  intro a c
  simp only [ReverseLK]
  push_cast
  ring

theorem view3_apply (H : ℕ) (t : A4 ℚ) (n h l e : ℤ)
    (h0 : 0 ≤ h) (hh : h < H) :
    view3 H t (n * H + h) l e = t n h l e := by
  have hH : (H : ℤ) ≠ 0 := by omega
  have hdiv : (n * H + h) / (H : ℤ) = n := by
    rw [add_comm, Int.add_mul_ediv_right h n hH, Int.ediv_eq_zero_of_lt h0 hh,
      zero_add]
  have hmod : (n * H + h) % (H : ℤ) = h := by
    rw [add_comm, Int.add_mul_emod_self, Int.emod_eq_of_lt h0 hh]
  simp only [view3, hdiv, hmod]

/-- `sliding_dot` on `(N*H, L, E)` views, read back through the
`(N, H, L, C)` view. -/
theorem sliding_dot_view_apply {α : Type} (write : ℚ → ℤ → ℤ → α)
    (A B : A4 ℚ) (init : A3 α) (N H L E C : ℕ) (n h l k : ℕ)
    (hn : n < N) (hh : h < H) :
    sliding_dot 64 write (view3 H A) (view3 H B) init (N * H) L E C
        ((n : ℤ) * H + h) l k =
      if (l : ℤ) < L ∧ (k : ℤ) < C ∧
          0 ≤ (l : ℤ) + k - ((C / 2 : ℕ) : ℤ) ∧
          (l : ℤ) + k - ((C / 2 : ℕ) : ℤ) < L then
        write (∑ e ∈ Finset.range E,
            A n h l e * B n h ((l : ℤ) + k - ((C / 2 : ℕ) : ℤ)) e)
          l ((l : ℤ) + k - ((C / 2 : ℕ) : ℤ))
      else init ((n : ℤ) * H + h) l k := by
  rw [sliding_dot_apply]
  have hbN : ((n : ℤ) * H + h) < ((N * H : ℕ) : ℤ) := by
    have hnat : n * H + h < N * H := by
      calc n * H + h < n * H + H := by omega
        _ = (n + 1) * H := by ring
        _ ≤ N * H := Nat.mul_le_mul_right H hn
    push_cast at hnat ⊢
    omega
  by_cases hs : (l : ℤ) < L ∧ (k : ℤ) < C ∧
      0 ≤ (l : ℤ) + k - ((C / 2 : ℕ) : ℤ) ∧
      (l : ℤ) + k - ((C / 2 : ℕ) : ℤ) < L
  · rw [if_pos ⟨by positivity, hbN, by positivity, hs.1, by positivity,
      hs.2.1, hs.2.2.1, hs.2.2.2⟩, if_pos hs]
    congr 1
    apply Finset.sum_congr rfl
    intro e he
    rw [view3_apply H A n h l e (by positivity) (by exact_mod_cast hh),
      view3_apply H B n h _ e (by positivity) (by exact_mod_cast hh)]
  · rw [if_neg, if_neg hs]
    intro hbig
    exact hs ⟨hbig.2.2.2.1, hbig.2.2.2.2.2.1, hbig.2.2.2.2.2.2⟩

/-!
## Entry-point characterisations
-/

theorem local_dot_product_apply (N H L E C : ℕ) (Q K : A4 ℚ)
    (mask : A2) (kl : A1) (n h l k : ℕ) (hn : n < N) (hh : h < H) :
    local_dot_product N H L E C Q K mask kl n h l k =
      if (l : ℤ) < L ∧ (k : ℤ) < C ∧
          0 ≤ (l : ℤ) + k - ((C / 2 : ℕ) : ℤ) ∧
          (l : ℤ) + k - ((C / 2 : ℕ) : ℤ) < L then
        SVal.fin ((∑ e ∈ Finset.range E,
            Q n h l e * K n h ((l : ℤ) + k - ((C / 2 : ℕ) : ℤ)) e) +
          mask l ((l : ℤ) + k - ((C / 2 : ℕ) : ℤ)))
      else SVal.ninf := by
  simp only [local_dot_product]
  rw [sliding_dot_view_apply (masked_lp_copy mask kl) Q K _ N H L E C n h l k
    hn hh]
  split_ifs with hc
  · rfl
  · rfl

theorem lwab_grad_attn_apply (N H L C E : ℕ) (attn vals grad : A4 ℚ)
    (n h l k : ℕ) (hn : n < N) (hh : h < H) :
    (local_weighted_average_backward N H L C E attn vals grad).1 n h l k =
      if (l : ℤ) < L ∧ (k : ℤ) < C ∧
          0 ≤ (l : ℤ) + k - ((C / 2 : ℕ) : ℤ) ∧
          (l : ℤ) + k - ((C / 2 : ℕ) : ℤ) < L then
        ∑ e ∈ Finset.range E,
          grad n h l e * vals n h ((l : ℤ) + k - ((C / 2 : ℕ) : ℤ)) e
      else 0 := by
  simp only [local_weighted_average_backward]
  rw [sliding_dot_view_apply lp_copy grad vals _ N H L E C n h l k hn hh]
  split_ifs with hc
  · rfl
  · rfl

theorem local_weighted_average_apply (N H L C E : ℕ) (attn vals : A4 ℚ)
    (n h l e : ℕ) (hn : n < N) (hh : h < H) (hl : l < L) (he : e < E) :
    local_weighted_average N H L C E attn vals n h l e =
      ∑ kk ∈ Finset.range C,
        (if 0 ≤ (l : ℤ) - ((C / 2 : ℕ) : ℤ) + kk ∧
            (l : ℤ) - ((C / 2 : ℕ) : ℤ) + kk < L then
          attn n h l kk * vals n h ((l : ℤ) - ((C / 2 : ℕ) : ℤ) + kk) e
        else 0) := by
  simp only [local_weighted_average]
  rw [local_copy_scaled_apply N H L L E C attn vals _ n h l e
    (by positivity) (by exact_mod_cast hn) (by positivity)
    (by exact_mod_cast hh) (by positivity) (by exact_mod_cast hl)
    (by positivity) (by exact_mod_cast he)]
  simp only [zero_add]

theorem ldb_grad_queries_apply (N H L E C : ℕ) (Q K : A4 ℚ) (kl : A1)
    (grad : A4 ℚ) (n h l e : ℕ)
    (hn : n < N) (hh : h < H) (hl : l < L) (he : e < E) :
    (local_dot_backward N H L E C Q K kl grad).1 n h l e =
      ∑ kk ∈ Finset.range C,
        (if 0 ≤ (l : ℤ) - ((C / 2 : ℕ) : ℤ) + kk ∧
            (l : ℤ) - ((C / 2 : ℕ) : ℤ) + kk < L then
          grad n h l kk * K n h ((l : ℤ) - ((C / 2 : ℕ) : ℤ) + kk) e
        else 0) := by
  simp only [local_dot_backward]
  rw [local_copy_scaled_apply N H L L E C grad K _ n h l e
    (by positivity) (by exact_mod_cast hn) (by positivity)
    (by exact_mod_cast hh) (by positivity) (by exact_mod_cast hl)
    (by positivity) (by exact_mod_cast he)]
  simp only [zero_add]

/-- What the code actually computes for `grad_keys`: the `IncreasingLK`
scatter, whose banded index equals the loop's absolute window index. -/
theorem ldb_grad_keys_apply (N H L E C : ℕ) (Q K : A4 ℚ) (kl : A1)
    (grad : A4 ℚ) (n h s e : ℕ)
    (hn : n < N) (hh : h < H) (hs : s < L) (he : e < E) :
    (local_dot_backward N H L E C Q K kl grad).2 n h s e =
      ∑ kk ∈ Finset.range C,
        (if 0 ≤ (s : ℤ) - (((C - 1) / 2 : ℕ) : ℤ) + kk ∧
            (s : ℤ) - (((C - 1) / 2 : ℕ) : ℤ) + kk < L then
          Q n h ((s : ℤ) - (((C - 1) / 2 : ℕ) : ℤ) + kk) e *
            grad n h ((s : ℤ) - (((C - 1) / 2 : ℕ) : ℤ) + kk) kk
        else 0) := by
  simp only [local_dot_backward]
  rw [local_copy_scaled_transpose_apply IncreasingLK (fun m => (m : ℤ))
    N H L L E C (IncreasingLK_eq C) grad Q _ n h s e
    (by positivity) (by exact_mod_cast hn) (by positivity)
    (by exact_mod_cast hh) (by positivity) (by exact_mod_cast hs)
    (by exact_mod_cast hs) (by positivity) (by exact_mod_cast he)]
  simp only [zero_add]

/-- What the code computes for `grad_values`: the `ReverseLK` scatter, whose
banded index is the reversed absolute window index. -/
theorem lwab_grad_values_apply (N H L C E : ℕ) (attn vals grad : A4 ℚ)
    (n h s e : ℕ) (hn : n < N) (hh : h < H) (hs : s < L) (he : e < E) :
    (local_weighted_average_backward N H L C E attn vals grad).2 n h s e =
      ∑ kk ∈ Finset.range C,
        (if 0 ≤ (s : ℤ) - (((C - 1) / 2 : ℕ) : ℤ) + kk ∧
            (s : ℤ) - (((C - 1) / 2 : ℕ) : ℤ) + kk < L then
          grad n h ((s : ℤ) - (((C - 1) / 2 : ℕ) : ℤ) + kk) e *
            attn n h ((s : ℤ) - (((C - 1) / 2 : ℕ) : ℤ) + kk)
              ((C : ℤ) - kk - 1)
        else 0) := by
  simp only [local_weighted_average_backward]
  rw [local_copy_scaled_transpose_apply ReverseLK
    (fun m => (C : ℤ) - (m : ℤ) - 1)
    N H L L E C (fun a c => by rw [ReverseLK_eq C a c])
    attn grad _ n h s e
    (by positivity) (by exact_mod_cast hn) (by positivity)
    (by exact_mod_cast hh) (by positivity) (by exact_mod_cast hs)
    (by exact_mod_cast hs) (by positivity) (by exact_mod_cast he)]
  simp only [zero_add]

/-!
## Claim theorems
-/

/-- C1: for every batch `n`, head `h`, query position `l`, and relative index
`k < C` (`C = local_context`), with `s = l - C/2 + k`, the output of
`local_dot_product` satisfies `scores[n,h,l,k] = Q[n,h,l]·K[n,h,s] + mask[l,s]`
when `0 ≤ s < L`, and `scores[n,h,l,k] = -infinity` when `s` is outside
`[0, L)`. -/
theorem local_dot_product_banded_scores (N H L E C : ℕ) (Q K : A4 ℚ)
    (mask : A2) (kl : A1) (n h l k : ℕ)
    (hn : n < N) (hh : h < H) (hl : l < L) (hk : k < C) :
    local_dot_product N H L E C Q K mask kl n h l k =
      if 0 ≤ (l : ℤ) + k - ((C / 2 : ℕ) : ℤ) ∧
          (l : ℤ) + k - ((C / 2 : ℕ) : ℤ) < L then
        SVal.fin ((∑ e ∈ Finset.range E,
            Q n h l e * K n h ((l : ℤ) + k - ((C / 2 : ℕ) : ℤ)) e) +
          mask l ((l : ℤ) + k - ((C / 2 : ℕ) : ℤ)))
      else SVal.ninf := by
  rw [local_dot_product_apply N H L E C Q K mask kl n h l k hn hh]
  by_cases hs : 0 ≤ (l : ℤ) + k - ((C / 2 : ℕ) : ℤ) ∧
      (l : ℤ) + k - ((C / 2 : ℕ) : ℤ) < L
  · rw [if_pos ⟨by exact_mod_cast hl, by exact_mod_cast hk, hs.1, hs.2⟩,
      if_pos hs]
  · rw [if_neg, if_neg hs]
    intro hbig
    exact hs ⟨hbig.2.2.1, hbig.2.2.2⟩

theorem local_dot_product_banded_scores_witness :
    (0 : ℕ) < 1 ∧ (1 : ℕ) < 2 ∧ (0 : ℕ) < 2 ∧
    local_dot_product 1 1 2 1 2 (fun _ _ _ _ => 2) (fun _ _ _ _ => 3)
        (fun _ _ => 5) (fun _ => 2) 0 0 1 0 = SVal.fin 11 ∧
    local_dot_product 1 1 2 1 2 (fun _ _ _ _ => 2) (fun _ _ _ _ => 3)
        (fun _ _ => 5) (fun _ => 2) 0 0 0 0 = SVal.ninf := by
  refine ⟨by norm_num, by norm_num, by norm_num, ?_, ?_⟩
  · exact (local_dot_product_banded_scores 1 1 2 1 2 _ _ _ _ 0 0 1 0
      (by norm_num) (by norm_num) (by norm_num) (by norm_num)).trans
      (by norm_num [Finset.sum_range_succ])
  · exact (local_dot_product_banded_scores 1 1 2 1 2 _ _ _ _ 0 0 0 0
      (by norm_num) (by norm_num) (by norm_num) (by norm_num)).trans
      (by norm_num)

/-- C2: for attention `(N,H,L,C)` and values `(N,H,L,E)`,
`local_weighted_average` returns the zero-initialised accumulated output with
`output[n,h,l,e] = Σ_{k<C} attn[n,h,l,k] · V[n,h,l-C/2+k,e]`, where terms
whose key index `l-C/2+k` falls outside `[0,L)` contribute zero. -/
theorem local_weighted_average_windowed_sum (N H L C E : ℕ)
    (attn vals : A4 ℚ) (n h l e : ℕ)
    (hn : n < N) (hh : h < H) (hl : l < L) (he : e < E) :
    local_weighted_average N H L C E attn vals n h l e =
      ∑ k ∈ Finset.range C,
        (if 0 ≤ (l : ℤ) - ((C / 2 : ℕ) : ℤ) + k ∧
            (l : ℤ) - ((C / 2 : ℕ) : ℤ) + k < L then
          attn n h l k * vals n h ((l : ℤ) - ((C / 2 : ℕ) : ℤ) + k) e
        else 0) :=
  local_weighted_average_apply N H L C E attn vals n h l e hn hh hl he

theorem local_weighted_average_windowed_sum_witness :
    (0 : ℕ) < 1 ∧ (1 : ℕ) < 2 ∧ (0 : ℕ) < 1 ∧
    local_weighted_average 1 1 2 2 1 (fun _ _ _ _ => 2) (fun _ _ _ _ => 3)
        0 0 1 0 = 12 ∧
    local_weighted_average 1 1 2 2 1 (fun _ _ _ _ => 2) (fun _ _ _ _ => 3)
        0 0 0 0 = 6 := by
  refine ⟨by norm_num, by norm_num, by norm_num, ?_, ?_⟩
  · exact (local_weighted_average_windowed_sum 1 1 2 2 1 _ _ 0 0 1 0
      (by norm_num) (by norm_num) (by norm_num) (by norm_num)).trans
      (by norm_num [Finset.sum_range_succ])
  · exact (local_weighted_average_windowed_sum 1 1 2 2 1 _ _ 0 0 0 0
      (by norm_num) (by norm_num) (by norm_num) (by norm_num)).trans
      (by norm_num [Finset.sum_range_succ])

/-- C9: the selection kernels of the sliding dot-product engine write only
output cells `(n, l, k)` with `0 ≤ l < L`, `0 ≤ k < C` whose key index
`s = l - C/2 + k` lies inside the clipped key range (equivalently, inside
`[0, L)`); every other cell of the output tensor retains its initialisation
value after the call, for any selection functor. -/
theorem sliding_dot_no_spurious_writes {α : Type} (write : ℚ → ℤ → ℤ → α)
    (A B : A3 ℚ) (out0 : A3 α) (N L E C : ℕ) (b l k : ℤ)
    (hout : ¬ (0 ≤ b ∧ b < N ∧ 0 ≤ l ∧ l < L ∧ 0 ≤ k ∧ k < C ∧
      0 ≤ l + k - ((C / 2 : ℕ) : ℤ) ∧ l + k - ((C / 2 : ℕ) : ℤ) < L)) :
    sliding_dot 64 write A B out0 N L E C b l k = out0 b l k := by
  rw [sliding_dot_apply]
  exact if_neg hout

theorem sliding_dot_no_spurious_writes_witness :
    ¬ ((0 : ℤ) ≤ 0 ∧ (0 : ℤ) < 1 ∧ (0 : ℤ) ≤ 0 ∧ (0 : ℤ) < 2 ∧
        (0 : ℤ) ≤ 0 ∧ (0 : ℤ) < 2 ∧
        0 ≤ (0 : ℤ) + 0 - ((2 / 2 : ℕ) : ℤ) ∧
        (0 : ℤ) + 0 - ((2 / 2 : ℕ) : ℤ) < 2) ∧
    sliding_dot 64 (masked_lp_copy (fun _ _ => 0) (fun _ => 2))
        (fun _ _ _ => 1) (fun _ _ _ => 1) (fun _ _ _ => SVal.fin 7)
        1 2 1 2 0 0 0 = SVal.fin 7 :=
  ⟨by decide,
   sliding_dot_no_spurious_writes (masked_lp_copy (fun _ _ => 0) (fun _ => 2))
     (fun _ _ _ => 1) (fun _ _ _ => 1) (fun _ _ _ => SVal.fin 7)
     1 2 1 2 0 0 0 (by decide)⟩

/-- C4: `local_weighted_average_backward` computes `grad_V` with the reverse
index policy `k_mapped = C - k - e_local - 1`, and the result equals the
adjoint of the windowed gather with respect to its value operand:
`grad_V[n,h,s,e] = Σ over (l,k) with 0 ≤ k < C and l - C/2 + k = s of
attn[n,h,l,k] · grad_output[n,h,l,e]` (rows `l` outside `[0,L)` dropped). -/
theorem local_weighted_average_backward_grad_values_adjoint
    (N H L C E : ℕ) (attn vals grad : A4 ℚ) (n h s e : ℕ)
    (hn : n < N) (hh : h < H) (hs : s < L) (he : e < E) :
    (local_weighted_average_backward N H L C E attn vals grad).2 n h s e =
      ∑ k ∈ Finset.range C,
        (if 0 ≤ (s : ℤ) + ((C / 2 : ℕ) : ℤ) - k ∧
            (s : ℤ) + ((C / 2 : ℕ) : ℤ) - k < L then
          attn n h ((s : ℤ) + ((C / 2 : ℕ) : ℤ) - k) k *
            grad n h ((s : ℤ) + ((C / 2 : ℕ) : ℤ) - k) e
        else 0) := by
  rw [lwab_grad_values_apply N H L C E attn vals grad n h s e hn hh hs he]
  conv_lhs => rw [← Finset.sum_range_reflect]
  apply Finset.sum_congr rfl
  intro k hk
  have hkC : k < C := Finset.mem_range.mp hk
  have hidx : (s : ℤ) - (((C - 1) / 2 : ℕ) : ℤ) + ((C - 1 - k : ℕ) : ℤ) =
      (s : ℤ) + ((C / 2 : ℕ) : ℤ) - k := by omega
  have hpidx : (C : ℤ) - ((C - 1 - k : ℕ) : ℤ) - 1 = (k : ℤ) := by omega
  rw [hidx, hpidx]
  split_ifs with h1
  · ring
  · rfl

theorem local_weighted_average_backward_grad_values_adjoint_witness :
    (0 : ℕ) < 1 ∧ (0 : ℕ) < 2 ∧ (0 : ℕ) < 1 ∧
    (local_weighted_average_backward 1 1 2 2 1
        (fun _ _ l k => if l = 0 then (if k = 0 then 1 else 2)
          else (if k = 0 then 3 else 4))
        (fun _ _ _ _ => 0) (fun _ _ _ _ => 1)).2 0 0 0 0 = 5 ∧
    (local_weighted_average_backward 1 1 2 2 1
        (fun _ _ l k => if l = 0 then (if k = 0 then 1 else 2)
          else (if k = 0 then 3 else 4))
        (fun _ _ _ _ => 0) (fun _ _ _ _ => 1)).2 0 0 1 0 = 4 := by
  refine ⟨by norm_num, by norm_num, by norm_num, ?_, ?_⟩
  · exact (local_weighted_average_backward_grad_values_adjoint 1 1 2 2 1
      _ _ _ 0 0 0 0 (by norm_num) (by norm_num) (by norm_num)
      (by norm_num)).trans (by norm_num [Finset.sum_range_succ])
  · exact (local_weighted_average_backward_grad_values_adjoint 1 1 2 2 1
      _ _ _ 0 0 1 0 (by norm_num) (by norm_num) (by norm_num)
      (by norm_num)).trans (by norm_num [Finset.sum_range_succ])

/-- C7: after `local_weighted_average(attn, V)`, running
`local_weighted_average_backward(attn, V, grad_output)` with `grad_output`
the all-ones tensor yields `grad_attn[n,h,l,k] = Σ_e V[n,h, l-C/2+k, e]`
for every `k` whose key index lies in `[0, L)`, and `0` (that path's fill
value) otherwise. -/
theorem weighted_average_round_trip_grad_attn (N H L C E : ℕ)
    (attn vals : A4 ℚ) (n h l k : ℕ)
    (hn : n < N) (hh : h < H) (hl : l < L) (hk : k < C) :
    (local_weighted_average_backward N H L C E attn vals
        (fun _ _ _ _ => 1)).1 n h l k =
      if 0 ≤ (l : ℤ) + k - ((C / 2 : ℕ) : ℤ) ∧
          (l : ℤ) + k - ((C / 2 : ℕ) : ℤ) < L then
        ∑ e ∈ Finset.range E,
          vals n h ((l : ℤ) + k - ((C / 2 : ℕ) : ℤ)) e
      else 0 := by
  rw [lwab_grad_attn_apply N H L C E attn vals _ n h l k hn hh]
  by_cases hcond : 0 ≤ (l : ℤ) + k - ((C / 2 : ℕ) : ℤ) ∧
      (l : ℤ) + k - ((C / 2 : ℕ) : ℤ) < L
  · rw [if_pos ⟨by exact_mod_cast hl, by exact_mod_cast hk, hcond.1, hcond.2⟩,
      if_pos hcond]
    apply Finset.sum_congr rfl
    intro e he
    rw [one_mul]
  · rw [if_neg, if_neg hcond]
    intro hbig
    exact hcond ⟨hbig.2.2.1, hbig.2.2.2⟩

theorem weighted_average_round_trip_grad_attn_witness :
    (0 : ℕ) < 1 ∧ (1 : ℕ) < 2 ∧ (0 : ℕ) < 2 ∧
    (local_weighted_average_backward 1 1 2 2 1 (fun _ _ _ _ => 2)
        (fun _ _ l _ => if l = 0 then 5 else 7)
        (fun _ _ _ _ => 1)).1 0 0 1 1 = 7 ∧
    (local_weighted_average_backward 1 1 2 2 1 (fun _ _ _ _ => 2)
        (fun _ _ l _ => if l = 0 then 5 else 7)
        (fun _ _ _ _ => 1)).1 0 0 0 0 = 0 := by
  refine ⟨by norm_num, by norm_num, by norm_num, ?_, ?_⟩
  · exact (weighted_average_round_trip_grad_attn 1 1 2 2 1 _ _ 0 0 1 1
      (by norm_num) (by norm_num) (by norm_num) (by norm_num)).trans
      (by norm_num [Finset.sum_range_succ])
  · exact (weighted_average_round_trip_grad_attn 1 1 2 2 1 _ _ 0 0 0 0
      (by norm_num) (by norm_num) (by norm_num) (by norm_num)).trans
      (by norm_num)

/-- C10: the outputs of `local_dot_product` and `local_dot_backward` do not
depend on the contents of the `key_lengths` argument: it is stored by the
masked selection functor but never read, and `local_dot_backward` ignores it
entirely. -/
theorem key_lengths_independence (N H L E C : ℕ) (Q K : A4 ℚ) (mask : A2)
    (grad : A4 ℚ) (kl1 kl2 : A1) :
    local_dot_product N H L E C Q K mask kl1 =
      local_dot_product N H L E C Q K mask kl2 ∧
    local_dot_backward N H L E C Q K kl1 grad =
      local_dot_backward N H L E C Q K kl2 grad :=
  ⟨rfl, rfl⟩

/-- C6: the fill value for band cells whose key index is out of sequence
range is asymmetric: `local_dot_product` fills them with negative infinity,
the `grad_attn` output of `local_weighted_average_backward` (unmasked
selector path) fills them with zero, and in the weighted-sum output
out-of-range contributions are dropped (the sum ranges only over in-range
relative indices), never negative infinity. -/
theorem fill_value_asymmetry (N H L E C : ℕ) (Q K : A4 ℚ) (mask : A2)
    (kl : A1) (attn vals grad : A4 ℚ) (n h l k e : ℕ)
    (hn : n < N) (hh : h < H) (hl : l < L) (hk : k < C) (he : e < E)
    (hs : (l : ℤ) + k - ((C / 2 : ℕ) : ℤ) < 0 ∨
      (L : ℤ) ≤ (l : ℤ) + k - ((C / 2 : ℕ) : ℤ)) :
    local_dot_product N H L E C Q K mask kl n h l k = SVal.ninf ∧
    (local_weighted_average_backward N H L C E attn vals grad).1 n h l k = 0 ∧
    local_weighted_average N H L C E attn vals n h l e =
      ∑ kk ∈ (Finset.range C).filter
          (fun kk : ℕ => 0 ≤ (l : ℤ) - ((C / 2 : ℕ) : ℤ) + kk ∧
            (l : ℤ) - ((C / 2 : ℕ) : ℤ) + kk < L),
        attn n h l kk * vals n h ((l : ℤ) - ((C / 2 : ℕ) : ℤ) + kk) e := by
  refine ⟨?_, ?_, ?_⟩
  · rw [local_dot_product_apply N H L E C Q K mask kl n h l k hn hh, if_neg]
    rintro ⟨-, -, hc1, hc2⟩
    omega
  · rw [lwab_grad_attn_apply N H L C E attn vals grad n h l k hn hh, if_neg]
    rintro ⟨-, -, hc1, hc2⟩
    omega
  · rw [local_weighted_average_apply N H L C E attn vals n h l e hn hh hl he,
      Finset.sum_filter]

theorem fill_value_asymmetry_witness :
    (0 : ℕ) < 1 ∧ (0 : ℕ) < 2 ∧ (0 : ℕ) < 2 ∧ (0 : ℕ) < 1 ∧
    ((0 : ℤ) + 0 - ((2 / 2 : ℕ) : ℤ) < 0 ∨
      (2 : ℤ) ≤ (0 : ℤ) + 0 - ((2 / 2 : ℕ) : ℤ)) ∧
    local_dot_product 1 1 2 1 2 (fun _ _ _ _ => 2) (fun _ _ _ _ => 3)
        (fun _ _ => 5) (fun _ => 2) 0 0 0 0 = SVal.ninf ∧
    (local_weighted_average_backward 1 1 2 2 1 (fun _ _ _ _ => 2)
        (fun _ _ _ _ => 3) (fun _ _ _ _ => 4)).1 0 0 0 0 = 0 ∧
    local_weighted_average 1 1 2 2 1 (fun _ _ _ _ => 2)
        (fun _ _ _ _ => 3) 0 0 0 0 = 6 := by
  have h := fill_value_asymmetry 1 1 2 1 2 (fun _ _ _ _ => 2)
    (fun _ _ _ _ => 3) (fun _ _ => 5) (fun _ => 2) (fun _ _ _ _ => 2)
    (fun _ _ _ _ => 3) (fun _ _ _ _ => 4) 0 0 0 0 0
    (by norm_num) (by norm_num) (by norm_num) (by norm_num) (by norm_num)
    (by norm_num)
  refine ⟨by norm_num, by norm_num, by norm_num, by norm_num, by norm_num,
    h.1, h.2.1, h.2.2.trans ?_⟩
  rw [Finset.sum_filter]
  norm_num [Finset.sum_range_succ]

/-- Concrete query/key tensor exhibiting the `grad_keys` divergence:
`Q[l] = (1, 10)`. -/
def c3Q : A4 ℚ := fun _ _ l _ => if l = 0 then 1 else 10

/-- Concrete upstream gradient: the indicator of the score cell
`(l, k) = (1, 1)` (which pairs query 1 with key `s = 1`). -/
def c3g : A4 ℚ := fun _ _ l k => if l = 1 ∧ k = 1 then 1 else 0

/-- C3: `local_dot_backward` does not return the exact adjoint of the banded
score map for `grad_K`.  At `N = H = E = 1`, `L = 2`, `C = 2`,
`Q = K = (1, 10)` and `grad_scores` the indicator of `(l,k) = (1,1)`, the
code (the `IncreasingLK` scatter) returns `grad_K = (10, 0)`, whereas the
scatter-add adjoint `grad_K[s] = Σ over (l,k) with l - C/2 + k = s of
grad_scores[l,k]·Q[l]` equals `(0, 10)`. -/
theorem local_dot_backward_grad_keys_not_adjoint :
    (local_dot_backward 1 1 2 1 2 c3Q c3Q (fun _ => 2) c3g).2 0 0 0 0 = 10 ∧
    (local_dot_backward 1 1 2 1 2 c3Q c3Q (fun _ => 2) c3g).2 0 0 1 0 = 0 ∧
    (∑ k ∈ Finset.range 2,
      (if 0 ≤ (0 : ℤ) + ((2 / 2 : ℕ) : ℤ) - k ∧
          (0 : ℤ) + ((2 / 2 : ℕ) : ℤ) - k < 2 then
        c3g 0 0 ((0 : ℤ) + ((2 / 2 : ℕ) : ℤ) - k) k *
          c3Q 0 0 ((0 : ℤ) + ((2 / 2 : ℕ) : ℤ) - k) 0
      else 0)) = 0 ∧
    (∑ k ∈ Finset.range 2,
      (if 0 ≤ (1 : ℤ) + ((2 / 2 : ℕ) : ℤ) - k ∧
          (1 : ℤ) + ((2 / 2 : ℕ) : ℤ) - k < 2 then
        c3g 0 0 ((1 : ℤ) + ((2 / 2 : ℕ) : ℤ) - k) k *
          c3Q 0 0 ((1 : ℤ) + ((2 / 2 : ℕ) : ℤ) - k) 0
      else 0)) = 10 := by
  refine ⟨?_, ?_, ?_, ?_⟩
  · exact (ldb_grad_keys_apply 1 1 2 1 2 c3Q c3Q _ c3g 0 0 0 0 (by norm_num)
      (by norm_num) (by norm_num) (by norm_num)).trans
      (by norm_num [Finset.sum_range_succ, c3Q, c3g])
  · exact (ldb_grad_keys_apply 1 1 2 1 2 c3Q c3Q _ c3g 0 0 1 0 (by norm_num)
      (by norm_num) (by norm_num) (by norm_num)).trans
      (by norm_num [Finset.sum_range_succ, c3Q, c3g])
  · norm_num [Finset.sum_range_succ, c3Q, c3g]
  · norm_num [Finset.sum_range_succ, c3Q, c3g]

/-- C5, as stated, is false: the banded output has a finite entry whose
dense source position satisfies `|l - s| ≥ C/2`.  At `L = 2`, `C = 2`,
`Q = K = 1`, `mask = 0`, cell `(l, k) = (1, 0)` has key index `s = 0` and
holds the finite score `Q[1]·K[0] = 1`, yet `|1 - 0| = 1 ≥ C/2 = 1`, so
the dense reference that discards every entry with `|l - s| ≥ C/2` discards
it. -/
theorem dense_band_equivalence_strict_counterexample :
    local_dot_product 1 1 2 1 2 (fun _ _ _ _ => 1) (fun _ _ _ _ => 1)
        (fun _ _ => 0) (fun _ => 2) 0 0 1 0 = SVal.fin 1 ∧
    ¬ |(1 : ℤ) - 0| < ((2 / 2 : ℕ) : ℤ) := by
  constructor
  · exact (local_dot_product_apply 1 1 2 1 2 _ _ _ _ 0 0 1 0 (by norm_num)
      (by norm_num)).trans (by norm_num [Finset.sum_range_succ])
  · decide

/-- C5 amended: with the asymmetric window `-C/2 ≤ s - l < C/2` (instead of
`|l - s| < C/2`), the kept dense entries coincide exactly with the finite
entries of the banded output: each kept dense entry `(l, s)` appears at
banded position `k = s - l + C/2` with the dense value `Q·K + mask`, and
every finite banded entry arises from such a kept dense entry. -/
theorem dense_band_equivalence_asymmetric (N H L E C : ℕ) (Q K : A4 ℚ)
    (mask : A2) (kl : A1) (n h l : ℕ)
    (hn : n < N) (hh : h < H) (hl : l < L) (hC : C % 2 = 0) :
    (∀ s : ℤ, 0 ≤ s → s < L →
      -((C / 2 : ℕ) : ℤ) ≤ s - l → s - l < ((C / 2 : ℕ) : ℤ) →
      local_dot_product N H L E C Q K mask kl n h l
          ((s - l + ((C / 2 : ℕ) : ℤ)).toNat) =
        SVal.fin ((∑ e ∈ Finset.range E, Q n h l e * K n h s e) +
          mask l s)) ∧
    (∀ k : ℕ, k < C →
      local_dot_product N H L E C Q K mask kl n h l k ≠ SVal.ninf →
      (0 ≤ (l : ℤ) + k - ((C / 2 : ℕ) : ℤ) ∧
        (l : ℤ) + k - ((C / 2 : ℕ) : ℤ) < L ∧
        -((C / 2 : ℕ) : ℤ) ≤ ((l : ℤ) + k - ((C / 2 : ℕ) : ℤ)) - l ∧
        ((l : ℤ) + k - ((C / 2 : ℕ) : ℤ)) - l < ((C / 2 : ℕ) : ℤ)) ∧
      local_dot_product N H L E C Q K mask kl n h l k =
        SVal.fin ((∑ e ∈ Finset.range E,
            Q n h l e * K n h ((l : ℤ) + k - ((C / 2 : ℕ) : ℤ)) e) +
          mask l ((l : ℤ) + k - ((C / 2 : ℕ) : ℤ)))) := by
  constructor
  · intro s hs0 hsL hw1 hw2
    rw [local_dot_product_apply N H L E C Q K mask kl n h l _ hn hh]
    have hkval : (((s - l + ((C / 2 : ℕ) : ℤ)).toNat : ℕ) : ℤ) =
        s - l + ((C / 2 : ℕ) : ℤ) := by omega
    have hseq : (l : ℤ) + ((s - l + ((C / 2 : ℕ) : ℤ)).toNat : ℕ) -
        ((C / 2 : ℕ) : ℤ) = s := by omega
    rw [if_pos ⟨by exact_mod_cast hl, by omega, by omega, by omega⟩, hseq]
  · intro k hk hne
    rw [local_dot_product_apply N H L E C Q K mask kl n h l k hn hh] at hne ⊢
    by_cases hcond : (l : ℤ) < L ∧ (k : ℤ) < C ∧
        0 ≤ (l : ℤ) + k - ((C / 2 : ℕ) : ℤ) ∧
        (l : ℤ) + k - ((C / 2 : ℕ) : ℤ) < L
    · refine ⟨⟨hcond.2.2.1, hcond.2.2.2, by omega, ?_⟩, by rw [if_pos hcond]⟩
      have hkC : (k : ℤ) < C := hcond.2.1
      omega
    · rw [if_neg hcond] at hne
      exact absurd rfl hne

theorem dense_band_equivalence_asymmetric_witness :
    (0 : ℕ) < 1 ∧ (1 : ℕ) < 2 ∧ (2 : ℕ) % 2 = 0 ∧
    (0 : ℤ) ≤ 0 ∧ (0 : ℤ) < 2 ∧ -((2 / 2 : ℕ) : ℤ) ≤ (0 : ℤ) - 1 ∧
    (0 : ℤ) - 1 < ((2 / 2 : ℕ) : ℤ) ∧
    local_dot_product 1 1 2 1 2 (fun _ _ _ _ => 2) (fun _ _ _ _ => 3)
        (fun _ _ => 5) (fun _ => 2) 0 0 1
        (((0 : ℤ) - 1 + ((2 / 2 : ℕ) : ℤ)).toNat) = SVal.fin 11 := by
  refine ⟨by norm_num, by norm_num, by norm_num, by norm_num, by norm_num,
    by decide, by decide, ?_⟩
  exact ((dense_band_equivalence_asymmetric 1 1 2 1 2 (fun _ _ _ _ => 2)
    (fun _ _ _ _ => 3) (fun _ _ => 5) (fun _ => 2) 0 0 1 (by norm_num)
    (by norm_num) (by norm_num) (by norm_num)).1 0 (by norm_num) (by norm_num)
    (by decide) (by decide)).trans (by norm_num [Finset.sum_range_succ])

/-- C8: the sliding dot-product driver iterates over query positions in
chunks of `a_blocks = 64` (the chunk starts are exactly the multiples of 64
below `L`); every chunk at `l` uses the key range
`[max(0, l - C/2), min(L, l - C/2 + C + 64))`, a query chunk of size
`min(L - l, 64)`, and one dense matmul of that chunk against the key range
into the scratch buffer; and a selection-kernel thread whose relative index
`k = s - l + C/2` falls outside `[0, C)` is a no-op. -/
theorem sliding_dot_driver_structure (L C : ℕ) :
    (∀ l : ℕ, l ∈ sd_chunks L 64 ↔ l % 64 = 0 ∧ l < L) ∧
    (∀ l : ℕ, sd_s_start C l = max 0 ((l : ℤ) - ((C / 2 : ℕ) : ℤ)) ∧
      sd_s_end L C 64 l = min (L : ℤ) ((l : ℤ) - ((C / 2 : ℕ) : ℤ) + C + 64) ∧
      sd_n_a L 64 l = min (L - l) 64) ∧
    (∀ (A B : A3 ℚ) (E l_start bn i j : ℕ),
      sd_buffer A B E l_start (sd_s_start C l_start) bn i j =
        ∑ e ∈ Finset.range E,
          A bn (l_start + i) e * B bn (sd_s_start C l_start + j) e) ∧
    (∀ (α : Type) (write : ℚ → ℤ → ℤ → α) (buffer : ℕ → ℕ → ℕ → ℚ)
      (Nb : ℕ) (ls ss : ℤ) (na nb nn lo so : ℕ) (st : A3 α),
      nn < Nb → lo < na → so < nb →
      (ss + so - (ls + lo) + ((C / 2 : ℕ) : ℤ) < 0 ∨
        (C : ℤ) ≤ ss + so - (ls + lo) + ((C / 2 : ℕ) : ℤ)) →
      copy_step write buffer Nb C ls ss (na * nb) nb st
          (nn * (na * nb) + lo * nb + so) = st) := by
  refine ⟨?_, ?_, ?_, ?_⟩
  · intro l
    constructor
    · intro hmem
      obtain ⟨j, hj, rfl⟩ := List.mem_map.mp hmem
      have hjr := List.mem_range.mp hj
      simp only [ceildiv] at hjr
      omega
    · rintro ⟨hdvd, hlt⟩
      apply List.mem_map.mpr
      refine ⟨l / 64, List.mem_range.mpr ?_, ?_⟩
      · simp only [ceildiv]
        omega
      · omega
  · intro l
    exact ⟨rfl, rfl, rfl⟩
  · intro A B E l_start bn i j
    rfl
  · intro α write buffer Nb ls ss na nb nn lo so st h1 h2 h3 hk
    rw [copy_step_writes write buffer Nb C ls ss na nb nn lo so h1 h2 h3 st,
      if_pos hk]

theorem sliding_dot_driver_structure_witness :
    64 ∈ sd_chunks 130 64 ∧
    copy_step (masked_lp_copy (fun _ _ => 0) (fun _ => 2)) (fun _ _ _ => 1)
        1 2 5 0 (1 * 1) 1 (fun _ _ _ => SVal.fin 3)
        (0 * (1 * 1) + 0 * 1 + 0) = (fun _ _ _ => SVal.fin 3) := by
  constructor
  · exact ((sliding_dot_driver_structure 130 2).1 64).mpr (by norm_num)
  · exact (sliding_dot_driver_structure 130 2).2.2.2 SVal
      (masked_lp_copy (fun _ _ => 0) (fun _ => 2)) (fun _ _ _ => 1) 1 5 0
      1 1 0 0 0 (fun _ _ _ => SVal.fin 3) (by norm_num) (by norm_num)
      (by norm_num) (by decide)
